import Mathlib

/-!
Verification development for the StormForce9 scoreboard server
(Express + Firebase RTDB; `src/server.js` holds two copies of the script,
`src/unnamed/part_000` a third).  The server stores per-player best-time
records and exposes `GET /scores` (list, optionally sorted) and
`POST /scores/submit` (merge a submission into the record for the player's
canonical key, keeping the per-course minimum).

The embedding models JavaScript values in the fragment this server
actually handles: JSON payloads and stored snapshots contain finite
numbers and strings (JSON cannot carry `NaN`/`Infinity`, and Firebase RTDB
cannot store `null` leaves).  JavaScript numbers are modelled as exact
rationals: every claim is about comparisons, minima and finiteness, never
about floating-point rounding.  Strings are modelled over their character
lists; `toLowerCase` is modelled on the ASCII fragment.
-/

/-- A JavaScript value as it can appear in a request body course slot or a
stored course slot: a finite number or a string.  `Option JVal` stands for
a slot that may also be `undefined`/`null` (both fail the `!= null` test
in the source, and Firebase never returns `null` leaves). -/
inductive JVal where
  | num (q : ℚ)
  | str (s : String)
deriving DecidableEq, Repr

/-- Result of JavaScript `Number(...)` coercion: a finite number, `NaN`,
`Infinity` or `-Infinity`. -/
inductive JNum where
  | fin (q : ℚ)
  | nan
  | posinf
  | neginf
deriving DecidableEq, Repr

/-- JavaScript whitespace recognised by `String.prototype.trim` (ASCII
fragment: space, tab, line feed, carriage return, vertical tab, form
feed). -/
def isJsSpace (c : Char) : Bool :=
  c = ' ' || c = '\t' || c = '\n' || c = '\r' || c = '\x0b' || c = '\x0c'

/-- The character-list version of `String.prototype.trim`: drop whitespace
from both ends. -/
def trimList (l : List Char) : List Char :=
  ((l.dropWhile isJsSpace).reverse.dropWhile isJsSpace).reverse

/-- JavaScript `String.prototype.trim` on our string model. -/
def jsTrim (s : String) : String :=
  String.mk (trimList s.data)

/-- Decimal digit test. -/
def isDigitCh (c : Char) : Bool := '0' ≤ c && c ≤ '9'

/-- Value of a list of decimal digits. -/
def digitsToNat (l : List Char) : ℕ :=
  l.foldl (fun acc c => 10 * acc + (c.toNat - '0'.toNat)) 0

/-- JavaScript `Number(string)` on the decimal-integer fragment: the
string is trimmed; empty becomes `0`; an optional sign followed by decimal
digits becomes that integer; anything else (in particular any string
containing a letter) is `NaN`.  Hex, exponent and fractional literals are
outside the fragment exercised by the spec and the claims. -/
def jsStrToNumber (s : String) : JNum :=
  match trimList s.data with
  | [] => JNum.fin 0
  | '-' :: rest =>
      if rest ≠ [] && rest.all isDigitCh then JNum.fin (-(digitsToNat rest : ℚ))
      else JNum.nan
  | '+' :: rest =>
      if rest ≠ [] && rest.all isDigitCh then JNum.fin (digitsToNat rest : ℚ)
      else JNum.nan
  | l =>
      if l.all isDigitCh then JNum.fin (digitsToNat l : ℚ)
      else JNum.nan

/-- JavaScript `Number(v)` on our value model. -/
def toNumber : JVal → JNum
  | JVal.num q => JNum.fin q
  | JVal.str s => jsStrToNumber s

/-- JavaScript `Number.isFinite` on a coercion result. -/
def jsIsFinite : JNum → Bool
  | JNum.fin _ => true
  | _ => false

/-- JavaScript truthiness of a value (`0` and `""` are falsy). -/
def jsTruthy : JVal → Bool
  | JVal.num q => q ≠ 0
  | JVal.str s => s ≠ ""

/-- JavaScript subtraction on coercion results (`Infinity - Infinity` is
`NaN`, `NaN` propagates). -/
def jsub : JNum → JNum → JNum
  | JNum.nan, _ => JNum.nan
  | _, JNum.nan => JNum.nan
  | JNum.fin a, JNum.fin b => JNum.fin (a - b)
  | JNum.fin _, JNum.posinf => JNum.neginf
  | JNum.fin _, JNum.neginf => JNum.posinf
  | JNum.posinf, JNum.fin _ => JNum.posinf
  | JNum.posinf, JNum.posinf => JNum.nan
  | JNum.posinf, JNum.neginf => JNum.posinf
  | JNum.neginf, JNum.fin _ => JNum.neginf
  | JNum.neginf, JNum.posinf => JNum.neginf
  | JNum.neginf, JNum.neginf => JNum.nan

/-- Multiplication of a coercion result by a nonzero integer scale (the
source only uses the sort directions `1` and `-1`). -/
def jsMulInt (k : Int) : JNum → JNum
  | JNum.fin q => JNum.fin ((k : ℚ) * q)
  | JNum.nan => JNum.nan
  | JNum.posinf =>
      if 0 < k then JNum.posinf else if k < 0 then JNum.neginf else JNum.nan
  | JNum.neginf =>
      if 0 < k then JNum.neginf else if k < 0 then JNum.posinf else JNum.nan

/-- Whether a comparator result counts as strictly positive for
`Array.prototype.sort` (a `NaN` comparator result is treated as zero:
neither positive nor negative). -/
def jsIsPos : JNum → Bool
  | JNum.fin q => 0 < q
  | JNum.posinf => true
  | _ => false

/-- The five course slots. -/
inductive Course where
  | c1 | c2 | c3 | c4 | c5
deriving DecidableEq, Repr

/-- A stored score record (`/scores/<key>` in the database): display name,
device, update timestamp and the five optional course slots. -/
structure ScoreRecord where
  name : String
  device : String
  updatedAt : ℕ
  c1 : Option JVal
  c2 : Option JVal
  c3 : Option JVal
  c4 : Option JVal
  c5 : Option JVal
deriving DecidableEq, Repr

/-- Course-slot projection of a record. -/
def ScoreRecord.getC (r : ScoreRecord) : Course → Option JVal
  | Course.c1 => r.c1
  | Course.c2 => r.c2
  | Course.c3 => r.c3
  | Course.c4 => r.c4
  | Course.c5 => r.c5

/-- A `POST /scores/submit` request body:
`{ name?, device?, c1?..c5? }`.  `none` stands for an absent or `null`
field (both fail the source's `!= null` test). -/
structure SubmitBody where
  name : Option String
  device : Option String
  c1 : Option JVal
  c2 : Option JVal
  c3 : Option JVal
  c4 : Option JVal
  c5 : Option JVal
deriving DecidableEq, Repr

/-- Course-slot projection of a body. -/
def SubmitBody.getC (b : SubmitBody) : Course → Option JVal
  | Course.c1 => b.c1
  | Course.c2 => b.c2
  | Course.c3 => b.c3
  | Course.c4 => b.c4
  | Course.c5 => b.c5

/-- The `/scores` subtree of the database: an association list from
canonical key to record, in the children order the snapshot object
enumerates (`Object.values` walks this order; no claim depends on which
base order the database chose). -/
abbrev Store := List (String × ScoreRecord)

/-- Database read of `/scores/<k>` (the `snap.exists()` test is the
`Option`). -/
def lookupStore (k : String) : Store → Option ScoreRecord
  | [] => none
  | (k2, r) :: rest => if k2 = k then some r else lookupStore k rest

/-- Database `ref.set` of `/scores/<k>`: replace the child wholesale,
creating it if absent. -/
def setStore (k : String) (r : ScoreRecord) : Store → Store
  | [] => [(k, r)]
  | (k2, r2) :: rest =>
      if k2 = k then (k, r) :: rest else (k2, r2) :: setStore k r rest

/-- The list `Object.values(data)` over the snapshot. -/
def storeValues (s : Store) : List ScoreRecord := s.map Prod.snd

/-- The course slot currently stored under key `k` (absent key or absent
slot are both `none`, matching `snap.exists() ? snap.val() : \x7b\x7d`
followed by an absent property read). -/
def curVal (k : String) (c : Course) (s : Store) : Option JVal :=
  match lookupStore k s with
  | none => none
  | some r => r.getC c

/-- ASCII `String.prototype.toLowerCase` on one character. -/
def jsToLowerChar (c : Char) : Char :=
  if 'A' ≤ c && c ≤ 'Z' then Char.ofNat (c.toNat + 32) else c

/-- A character the key-derivation regex keeps: `[a-z0-9]`. -/
def isKeyChar (c : Char) : Bool :=
  ('a' ≤ c && c ≤ 'z') || ('0' ≤ c && c ≤ '9')

/-- Worker for the replacement `.replace(/[^a-z0-9]+/g, '-')`: walk the
characters left to right; a kept `[a-z0-9]` character is copied; the first
character of a run of other characters emits one hyphen and the rest of
the run (tracked by the `inRun` flag) emits nothing. -/
def collapseAux : Bool → List Char → List Char
  | _, [] => []
  | inRun, c :: cs =>
      if isKeyChar c then c :: collapseAux false cs
      else if inRun then collapseAux true cs
      else '-' :: collapseAux true cs

/-- The replacement `.replace(/[^a-z0-9]+/g, '-')`: every maximal run of
non-`[a-z0-9]` characters becomes a single hyphen. -/
def collapseRuns (l : List Char) : List Char := collapseAux false l

/-- The canonical key of a submitted name:
`String(name).toLowerCase().trim().replace(/[^a-z0-9]+/g, '-')` (note the
source trims before collapsing, so trailing punctuation becomes a trailing
hyphen rather than disappearing). -/
def canonKey (s : String) : String :=
  String.mk (collapseRuns (trimList (s.data.map jsToLowerChar)))

/-- An HTTP response of the score routes: a success payload carrying the
saved record, or an error with status and message. -/
inductive Resp where
  | ok (saved : ScoreRecord)
  | err (status : ℕ) (msg : String)
deriving DecidableEq, Repr

/-- One database operation performed by a handler, recorded so that
"the store is not read or written" is expressible. -/
inductive DbOp where
  | read (path : String)
  | write (path : String) (r : ScoreRecord)
deriving DecidableEq, Repr

/-- The per-course merge of the submit loop:
if the body value is present (`!= null`), coerce with `Number`; if finite,
store `min` with the coerced prior when that is finite, else the coerced
submission alone; a present non-finite submission sets nothing (the
`else if` carrying the prior forward is not reached); an absent submission
carries the prior forward (absent prior stays absent). -/
def mergeCourse (bodyVal exVal : Option JVal) : Option JVal :=
  match bodyVal with
  | none => exVal
  | some v =>
      match toNumber v with
      | JNum.fin nv =>
          match exVal with
          | some w =>
              match toNumber w with
              | JNum.fin ov => some (JVal.num (min ov nv))
              | _ => some (JVal.num nv)
          | none => some (JVal.num nv)
      | _ => none

/-- The record used when no snapshot exists at the key (`{}` in the
source): only its course slots are ever read, and they are all absent. -/
def blankRecord : ScoreRecord :=
  { name := "", device := "", updatedAt := 0,
    c1 := none, c2 := none, c3 := none, c4 := none, c5 := none }

/-- The route handler of `POST /scores/submit` after the API-key
middleware: validate the name, read the record at the canonical key, build
the merged record, write it back wholesale, answer with the saved record.
The third component lists the database operations performed.  `now` stands
for `Date.now()`. -/
def scoreSubmit (b : SubmitBody) (now : ℕ) (s : Store) :
    Resp × Store × List DbOp :=
  match b.name with
  | none => (Resp.err 400 "Missing name", s, [])
  | some nm =>
      if nm = "" || jsTrim nm = "" then (Resp.err 400 "Missing name", s, [])
      else
        let key := canonKey nm
        let existing := (lookupStore key s).getD blankRecord
        let next : ScoreRecord :=
          { name := (jsTrim nm).take 40
            device := if b.device = some "mobile" then "mobile" else "desktop"
            updatedAt := now
            c1 := mergeCourse b.c1 existing.c1
            c2 := mergeCourse b.c2 existing.c2
            c3 := mergeCourse b.c3 existing.c3
            c4 := mergeCourse b.c4 existing.c4
            c5 := mergeCourse b.c5 existing.c5 }
        (Resp.ok next, setStore key next s,
          [DbOp.read key, DbOp.write key next])

/-- The `requireApiKey` middleware: `500` when no secret is configured,
`401` when the header (defaulted to `""`) is not exactly the secret,
otherwise pass (`none` means `next()` was called). -/
def requireApiKey (apiKey : String) (hdr : Option String) : Option Resp :=
  if apiKey = "" then some (Resp.err 500 "Server not configured")
  else if hdr.getD "" ≠ apiKey then some (Resp.err 401 "Unauthorized")
  else none

/-- The full `POST /scores/submit` pipeline: middleware, then handler;
a middleware rejection performs no database operation. -/
def postScoresSubmit (apiKey : String) (hdr : Option String)
    (b : SubmitBody) (now : ℕ) (s : Store) : Resp × Store × List DbOp :=
  match requireApiKey apiKey hdr with
  | some r => (r, s, [])
  | none => scoreSubmit b now s

/-- The sort key expression `a[course] || Infinity` as it enters the
subtraction: a missing or falsy slot contributes `Infinity`, a truthy slot
contributes its `Number` coercion. -/
def timeVal (c : Course) (r : ScoreRecord) : JNum :=
  match r.getC c with
  | none => JNum.posinf
  | some v => if jsTruthy v then toNumber v else JNum.posinf

/-- The comparator `sortDir * (aTime - bTime)` read as "not strictly
positive", i.e. the comparator does not demand that `b` precede `a`;
`Array.prototype.sort` is stable and, for a consistent comparator, orders
by exactly this relation. -/
def sortLe (c : Course) (d : Int) (a b : ScoreRecord) : Bool :=
  ! jsIsPos (jsMulInt d (jsub (timeVal c a) (timeVal c b)))

/-- Stable insertion of `x` into `l`: `x` goes before the first element
that the comparator does not place strictly before it. -/
def insertCmp (le : α → α → Bool) (x : α) : List α → List α
  | [] => [x]
  | y :: ys => if le x y then x :: y :: ys else y :: insertCmp le x ys

/-- A stable sort realising `Array.prototype.sort` with comparator
relation `le` (the ECMAScript sort is required to be stable, and any two
stable sorts agree for a consistent comparator). -/
def stableSortBy (le : α → α → Bool) : List α → List α
  | [] => []
  | x :: xs => insertCmp le x (stableSortBy le xs)

/-- The `GET /scores` handler of the first copy (`src/server.js` lines
71-92): read all records, sort by the requested course (query default
`c1`), descending exactly when `dir` is the string `desc`.  The query
parameters are modelled on the fragment the interface documents: `course`
absent or one of `c1`..`c5`, `dir` an arbitrary string. -/
def listScores (s : Store) (courseQ : Option Course) (dirQ : Option String) :
    List ScoreRecord :=
  let course := courseQ.getD Course.c1
  let d : Int := if dirQ = some "desc" then -1 else 1
  stableSortBy (sortLe course d) (storeValues s)

/-- The `GET /scores` handler of the second copy (`src/server.js` lines
189-195): the flat `Object.values` array, unsorted. -/
def listScoresV2 (s : Store) : List ScoreRecord := storeValues s

/-- The `GET /scores` handler of the third copy
(`src/unnamed/part_000` lines 55-64): the flat `Object.values` array,
unsorted. -/
def listScoresV3 (s : Store) : List ScoreRecord := storeValues s

/-- The Boolean comparator induced by a key into a linear order. -/
def keyLe (key : α → WithTop ℚ) (a b : α) : Bool :=
  decide (key a ≤ key b)

/-- A course slot holding a finite number or nothing.  Every slot this
server itself writes has this shape, and the sort claims quantify over
stores of such records. -/
def numSlot (v : Option JVal) : Prop :=
  v = none ∨ ∃ q : ℚ, v = some (JVal.num q)

/-- The effective sort key of a record for a course: the coerced value of
`a[course] || Infinity`, with every non-finite contribution collapsed to
`⊤`. -/
def effSortKey (c : Course) (r : ScoreRecord) : WithTop ℚ :=
  match timeVal c r with
  | JNum.fin q => (q : WithTop ℚ)
  | _ => ⊤

/-- The merged record a valid submission builds (the `next` object of the
source, with `existing` read from the store). -/
def nextRecord (b : SubmitBody) (now : ℕ) (s : Store) (nm : String) :
    ScoreRecord :=
  let existing := (lookupStore (canonKey nm) s).getD blankRecord
  { name := (jsTrim nm).take 40
    device := if b.device = some "mobile" then "mobile" else "desktop"
    updatedAt := now
    c1 := mergeCourse b.c1 existing.c1
    c2 := mergeCourse b.c2 existing.c2
    c3 := mergeCourse b.c3 existing.c3
    c4 := mergeCourse b.c4 existing.c4
    c5 := mergeCourse b.c5 existing.c5 }

/-- A sequence of submissions applied in order to the store (each
submission re-reads the store the previous one left, the non-concurrent
case the spec describes). -/
def applySubmits (bodies : List SubmitBody) (now : ℕ) (s : Store) : Store :=
  match bodies with
  | [] => s
  | b :: rest => applySubmits rest now (scoreSubmit b now s).2.1

/-- The finite coerced values a sequence of bodies submits for a course,
in order. -/
def finiteSubmitted (c : Course) (bodies : List SubmitBody) : List ℚ :=
  bodies.filterMap (fun b =>
    match b.getC c with
    | none => none
    | some v =>
        match toNumber v with
        | JNum.fin q => some q
        | _ => none)

/-- Minimum of a list of rationals, `none` when empty. -/
def minOfList (l : List ℚ) : Option ℚ :=
  match l with
  | [] => none
  | q :: rest => some (rest.foldl min q)

/-- Running minimum threaded through a list, starting from an optional
prior value. -/
def mergeAcc (a : Option ℚ) (l : List ℚ) : Option ℚ :=
  match l with
  | [] => a
  | q :: rest =>
      mergeAcc (some (match a with | none => q | some p => min p q)) rest

/-- A record whose `c1` time is 5. -/
def recTime5 : ScoreRecord :=
  { blankRecord with name := "A", c1 := some (JVal.num 5) }

/-- A record whose `c1` time is 0 (a perfect time, but falsy). -/
def recTime0 : ScoreRecord :=
  { blankRecord with name := "B", c1 := some (JVal.num 0) }

/-- A record whose `c1` time is 10. -/
def recTime10 : ScoreRecord :=
  { blankRecord with name := "D", c1 := some (JVal.num 10) }

/-- A body submitting `c1 = 55` under the name `Alice`. -/
def bodyAlice55 : SubmitBody :=
  { name := some "Alice", device := none, c1 := some (JVal.num 55),
    c2 := none, c3 := none, c4 := none, c5 := none }

/-- A body submitting `c1 = 60` under the name `Alice`. -/
def bodyAlice60 : SubmitBody :=
  { name := some "Alice", device := none, c1 := some (JVal.num 60),
    c2 := none, c3 := none, c4 := none, c5 := none }

/-- A body submitting the non-numeric string `"x"` for `c1` under the
name `Alice`. -/
def bodyAliceStr : SubmitBody :=
  { name := some "Alice", device := none, c1 := some (JVal.str "x"),
    c2 := none, c3 := none, c4 := none, c5 := none }

/-- A record with no `c1` slot. -/
def recNoC1 : ScoreRecord :=
  { blankRecord with name := "C" }

/-- The sort key claim C4 ascribes to `GET /scores`: the record's own
stored value for the named course, with only a missing slot sent to the
`⊤` sentinel.  (The claim is silent about non-numeric stored values; the
counterexample only involves numeric ones.) -/
def claimSortKeyC4 (c : Course) (r : ScoreRecord) : WithTop ℚ :=
  match r.getC c with
  | some (JVal.num q) => (q : WithTop ℚ)
  | _ => ⊤

/-- The saved record with its `c1` slot dropped, produced by the second
submission of the C1 counterexample. -/
def recAliceDropped : ScoreRecord :=
  { name := "Alice", device := "desktop", updatedAt := 1,
    c1 := none, c2 := none, c3 := none, c4 := none, c5 := none }

/-- Status code of a response. -/
def respStatus : Resp → ℕ
  | Resp.ok _ => 200
  | Resp.err st _ => st

/-- A body with no name at all. -/
def bodyNoName : SubmitBody :=
  { name := none, device := none, c1 := none, c2 := none, c3 := none,
    c4 := none, c5 := none }

/-- The body of the C7 witness submission. -/
def bodyBob : SubmitBody :=
  { name := some "Bob", device := none, c1 := none, c2 := none, c3 := none,
    c4 := none, c5 := none }

/-- The record the C7 witness submission saves. -/
def recBob : ScoreRecord :=
  { name := "Bob", device := "desktop", updatedAt := 5, c1 := none,
    c2 := none, c3 := none, c4 := none, c5 := none }

/-- A stored record whose `c1` slot holds a non-numeric string. -/
def recPriorStr : ScoreRecord :=
  { blankRecord with name := "Alice", c1 := some (JVal.str "abc") }

/-- A body submitting the numeric string `"55"` for `c1` under the name
`Alice`. -/
def bodyAlice55Str : SubmitBody :=
  { name := some "Alice", device := none, c1 := some (JVal.str "55"),
    c2 := none, c3 := none, c4 := none, c5 := none }

/-! ## Lemmas and claim theorems -/

theorem collapseAux_cons_key (b : Bool) (c : Char) (cs : List Char)
    (hc : isKeyChar c = true) :
    collapseAux b (c :: cs) = c :: collapseAux false cs := by
  cases b <;> simp [collapseAux, hc]

theorem collapseAux_cons_nonkey_false (c : Char) (cs : List Char)
    (hc : isKeyChar c = false) :
    collapseAux false (c :: cs) = '-' :: collapseAux true cs := by
  simp [collapseAux, hc]

theorem collapseAux_cons_nonkey_true (c : Char) (cs : List Char)
    (hc : isKeyChar c = false) :
    collapseAux true (c :: cs) = collapseAux true cs := by
  simp [collapseAux, hc]

theorem isKeyChar_hyphen : isKeyChar '-' = false := by decide

/-- Every character the replacement emits is a kept `[a-z0-9]` character
or the hyphen. -/
theorem mem_collapseAux (l : List Char) :
    ∀ (b : Bool), ∀ c ∈ collapseAux b l, isKeyChar c = true ∨ c = '-' := by
  induction l with
  | nil => intro b c hc; simp [collapseAux] at hc
  | cons a as ih =>
      intro b c hc
      by_cases ha : isKeyChar a
      · rw [collapseAux_cons_key b a as ha] at hc
        rcases List.mem_cons.mp hc with rfl | hc
        · exact Or.inl ha
        · exact ih false c hc
      · have ha2 : isKeyChar a = false := by simpa using ha
        cases b with
        | true =>
            rw [collapseAux_cons_nonkey_true a as ha2] at hc
            exact ih true c hc
        | false =>
            rw [collapseAux_cons_nonkey_false a as ha2] at hc
            rcases List.mem_cons.mp hc with rfl | hc
            · exact Or.inr rfl
            · exact ih true c hc

theorem mem_collapseRuns (l : List Char) :
    ∀ c ∈ collapseRuns l, isKeyChar c = true ∨ c = '-' :=
  mem_collapseAux l false

/-- Reprocessing a collapsed list changes nothing: the false-flag outputs
are fixed by a false-flag pass, and the true-flag outputs (which start
with a kept character if nonempty) are fixed by a pass under either
flag. -/
theorem collapseAux_idem (l : List Char) :
    collapseAux false (collapseAux false l) = collapseAux false l ∧
    ∀ b : Bool, collapseAux b (collapseAux true l) = collapseAux true l := by
  induction l with
  | nil => exact ⟨rfl, fun _ => rfl⟩
  | cons c cs ih =>
      by_cases hc : isKeyChar c
      · constructor
        · rw [collapseAux_cons_key false c cs hc,
            collapseAux_cons_key false c _ hc, ih.1]
        · intro b
          rw [collapseAux_cons_key true c cs hc,
            collapseAux_cons_key b c _ hc, ih.1]
      · have hc2 : isKeyChar c = false := by simpa using hc
        constructor
        · rw [collapseAux_cons_nonkey_false c cs hc2,
            collapseAux_cons_nonkey_false '-' _ isKeyChar_hyphen, ih.2 true]
        · intro b
          rw [collapseAux_cons_nonkey_true c cs hc2]
          exact ih.2 b

/-- The replacement is idempotent. -/
theorem collapseRuns_idem (l : List Char) :
    collapseRuns (collapseRuns l) = collapseRuns l :=
  (collapseAux_idem l).1

/-- Lowercasing fixes every character the replacement can emit. -/
theorem jsToLowerChar_fix (c : Char) (h : isKeyChar c = true ∨ c = '-') :
    jsToLowerChar c = c := by
  rcases h with h | rfl
  · simp only [isKeyChar, Bool.or_eq_true, Bool.and_eq_true,
      decide_eq_true_eq] at h
    unfold jsToLowerChar
    rw [if_neg]
    simp only [Bool.and_eq_true, decide_eq_true_eq, not_and]
    intro h1
    rcases h with ⟨h2, _⟩ | ⟨_, h3⟩
    · intro h4; exact absurd (le_trans h2 h4) (by decide)
    · intro _; exact absurd (le_trans h1 h3) (by decide)
  · decide

/-- No character the replacement can emit is JavaScript whitespace. -/
theorem keyChar_not_space (c : Char) (h : isKeyChar c = true ∨ c = '-') :
    isJsSpace c = false := by
  cases hsp : isJsSpace c
  · rfl
  · exfalso
    simp only [isJsSpace, Bool.or_eq_true, decide_eq_true_eq] at hsp
    rcases h with h | rfl
    · simp only [isKeyChar, Bool.or_eq_true, Bool.and_eq_true,
        decide_eq_true_eq] at h
      have : c = ' ' ∨ c = '\t' ∨ c = '\n' ∨ c = '\r' ∨ c = '\x0b' ∨
          c = '\x0c' := by tauto
      rcases this with rfl | rfl | rfl | rfl | rfl | rfl <;>
        rcases h with ⟨h1, h2⟩ | ⟨h1, h2⟩ <;> exact absurd h1 (by decide)
    · have : ('-' : Char) = ' ' ∨ ('-' : Char) = '\t' ∨ ('-' : Char) = '\n' ∨
          ('-' : Char) = '\r' ∨ ('-' : Char) = '\x0b' ∨ ('-' : Char) = '\x0c' := by
        tauto
      rcases this with h | h | h | h | h | h <;> exact absurd h (by decide)

/-- Dropping leading whitespace does nothing to a list with no whitespace. -/
theorem dropWhile_space_eq_self (l : List Char)
    (h : ∀ c ∈ l, isJsSpace c = false) : l.dropWhile isJsSpace = l := by
  cases l with
  | nil => rfl
  | cons a t =>
      rw [List.dropWhile_cons, if_neg]
      simp [h a (List.mem_cons_self a t)]

/-- Trimming does nothing to a list with no whitespace. -/
theorem trimList_eq_self (l : List Char)
    (h : ∀ c ∈ l, isJsSpace c = false) : trimList l = l := by
  unfold trimList
  rw [dropWhile_space_eq_self l h,
    dropWhile_space_eq_self l.reverse (fun c hc => h c (List.mem_reverse.mp hc)),
    List.reverse_reverse]

/-- The canonical-key derivation is idempotent. -/
theorem canonKey_idem (s : String) : canonKey (canonKey s) = canonKey s := by
  unfold canonKey
  have hmem : ∀ c ∈ collapseRuns (trimList (s.data.map jsToLowerChar)),
      isKeyChar c = true ∨ c = '-' := mem_collapseRuns _
  have h1 : (collapseRuns (trimList (s.data.map jsToLowerChar))).map
      jsToLowerChar = collapseRuns (trimList (s.data.map jsToLowerChar)) :=
    (List.map_congr_left (fun a ha => jsToLowerChar_fix a (hmem a ha))).trans
      (List.map_id _)
  have h2 : trimList (collapseRuns (trimList (s.data.map jsToLowerChar)))
      = collapseRuns (trimList (s.data.map jsToLowerChar)) :=
    trimList_eq_self _ (fun c hc => keyChar_not_space c (hmem c hc))
  simp only [String.data]
  rw [h1, h2, collapseRuns_idem]

theorem insertCmp_perm (le : α → α → Bool) (x : α) (l : List α) :
    List.Perm (insertCmp le x l) (x :: l) := by
  induction l with
  | nil => simp [insertCmp]
  | cons y ys ih =>
      unfold insertCmp
      by_cases h : le x y
      · rw [if_pos h]
      · rw [if_neg h]
        exact List.Perm.trans (List.Perm.cons y ih) (List.Perm.swap x y ys)

theorem stableSortBy_perm (le : α → α → Bool) (l : List α) :
    List.Perm (stableSortBy le l) l := by
  induction l with
  | nil => simp [stableSortBy]
  | cons x xs ih =>
      unfold stableSortBy
      exact List.Perm.trans (insertCmp_perm le x (stableSortBy le xs))
        (List.Perm.cons x ih)

theorem mem_stableSortBy (le : α → α → Bool) (l : List α) (a : α) :
    a ∈ stableSortBy le l ↔ a ∈ l :=
  (stableSortBy_perm le l).mem_iff

/-- Insertion only consults the comparator on the inserted element against
members of the list, so comparators that agree there insert alike. -/
theorem insertCmp_congr (le₁ le₂ : α → α → Bool) (x : α) (l : List α)
    (h : ∀ y ∈ l, le₁ x y = le₂ x y) :
    insertCmp le₁ x l = insertCmp le₂ x l := by
  induction l with
  | nil => rfl
  | cons y ys ih =>
      unfold insertCmp
      rw [h y (List.mem_cons_self y ys)]
      by_cases h2 : le₂ x y
      · rw [if_pos h2, if_pos h2]
      · rw [if_neg h2, if_neg h2,
          ih (fun z hz => h z (List.mem_cons_of_mem y hz))]

/-- The sort only consults the comparator on pairs of list members, so
comparators that agree there sort alike. -/
theorem stableSortBy_congr (le₁ le₂ : α → α → Bool) (l : List α)
    (h : ∀ a ∈ l, ∀ b ∈ l, le₁ a b = le₂ a b) :
    stableSortBy le₁ l = stableSortBy le₂ l := by
  induction l with
  | nil => rfl
  | cons x xs ih =>
      unfold stableSortBy
      rw [ih (fun a ha b hb => h a (List.mem_cons_of_mem x ha) b
        (List.mem_cons_of_mem x hb))]
      exact insertCmp_congr _ _ x _ (fun y hy => h x (List.mem_cons_self x xs)
        y (List.mem_cons_of_mem x ((mem_stableSortBy le₂ xs y).mp hy)))

theorem pairwise_insertCmp (key : α → WithTop ℚ) (x : α) (l : List α)
    (h : l.Pairwise (fun a b => key a ≤ key b)) :
    (insertCmp (keyLe key) x l).Pairwise (fun a b => key a ≤ key b) := by
  induction l with
  | nil => simp [insertCmp]
  | cons y ys ih =>
      unfold insertCmp
      by_cases hxy : keyLe key x y
      · rw [if_pos hxy]
        have hxyP : key x ≤ key y := of_decide_eq_true hxy
        refine List.Pairwise.cons ?_ h
        intro z hz
        rcases List.mem_cons.mp hz with rfl | hz
        · exact hxyP
        · exact le_trans hxyP (List.rel_of_pairwise_cons h hz)
      · rw [if_neg hxy]
        have hyx : key y ≤ key x :=
          le_of_not_le (fun hc => hxy (decide_eq_true hc))
        refine List.Pairwise.cons ?_ (ih (List.Pairwise.sublist
          (List.sublist_cons_self y ys) h))
        intro z hz
        rcases List.mem_cons.mp
            ((insertCmp_perm (keyLe key) x ys).mem_iff.mp hz) with rfl | hz
        · exact hyx
        · exact List.rel_of_pairwise_cons h hz

theorem pairwise_stableSortBy (key : α → WithTop ℚ) (l : List α) :
    (stableSortBy (keyLe key) l).Pairwise (fun a b => key a ≤ key b) := by
  induction l with
  | nil => simp [stableSortBy]
  | cons x xs ih =>
      unfold stableSortBy
      exact pairwise_insertCmp key x _ ih

theorem timeVal_of_numSlot (c : Course) (r : ScoreRecord)
    (h : numSlot (r.getC c)) :
    timeVal c r = JNum.posinf ∨ ∃ q : ℚ, q ≠ 0 ∧ timeVal c r = JNum.fin q := by
  rcases h with h | ⟨q, h⟩
  · left; simp [timeVal, h]
  · by_cases hq : q = 0
    · left; simp [timeVal, h, jsTruthy, hq]
    · right; exact ⟨q, hq, by simp [timeVal, h, jsTruthy, toNumber, hq]⟩

/-- On numeric slots the ascending JavaScript comparator is exactly the
key order. -/
theorem sortLe_one_eq_keyLe (c : Course) (a b : ScoreRecord)
    (ha : numSlot (a.getC c)) (hb : numSlot (b.getC c)) :
    sortLe c 1 a b = keyLe (effSortKey c) a b := by
  rcases timeVal_of_numSlot c a ha with hta | ⟨qa, hqa, hta⟩ <;>
    rcases timeVal_of_numSlot c b hb with htb | ⟨qb, hqb, htb⟩
  · simp [sortLe, keyLe, effSortKey, hta, htb, jsub, jsMulInt, jsIsPos]
  · simp [sortLe, keyLe, effSortKey, hta, htb, jsub, jsMulInt, jsIsPos]
  · simp [sortLe, keyLe, effSortKey, hta, htb, jsub, jsMulInt, jsIsPos]
  · simp only [sortLe, keyLe, effSortKey, hta, htb, jsub, jsMulInt, jsIsPos,
      Int.cast_one, one_mul, WithTop.coe_le_coe]
    rw [← decide_not]
    exact decide_eq_decide.mpr (not_lt.trans sub_nonpos)

/-- On numeric slots the descending JavaScript comparator is exactly the
flipped key order. -/
theorem sortLe_negOne_eq_keyLe (c : Course) (a b : ScoreRecord)
    (ha : numSlot (a.getC c)) (hb : numSlot (b.getC c)) :
    sortLe c (-1) a b = keyLe (effSortKey c) b a := by
  rcases timeVal_of_numSlot c a ha with hta | ⟨qa, hqa, hta⟩ <;>
    rcases timeVal_of_numSlot c b hb with htb | ⟨qb, hqb, htb⟩
  · simp [sortLe, keyLe, effSortKey, hta, htb, jsub, jsMulInt, jsIsPos]
  · simp [sortLe, keyLe, effSortKey, hta, htb, jsub, jsMulInt, jsIsPos]
  · simp [sortLe, keyLe, effSortKey, hta, htb, jsub, jsMulInt, jsIsPos]
  · simp only [sortLe, keyLe, effSortKey, hta, htb, jsub, jsMulInt, jsIsPos,
      WithTop.coe_le_coe]
    rw [show ((-1 : Int) : ℚ) * (qa - qb) = qb - qa by push_cast; ring,
      ← decide_not]
    exact decide_eq_decide.mpr (not_lt.trans sub_nonpos)

theorem pairwise_insertCmp_flip (key : α → WithTop ℚ) (x : α) (l : List α)
    (h : l.Pairwise (fun a b => key b ≤ key a)) :
    (insertCmp (fun a b => keyLe key b a) x l).Pairwise
      (fun a b => key b ≤ key a) := by
  induction l with
  | nil => simp [insertCmp]
  | cons y ys ih =>
      unfold insertCmp
      by_cases hxy : keyLe key y x
      · rw [if_pos hxy]
        have hxyP : key y ≤ key x := of_decide_eq_true hxy
        refine List.Pairwise.cons ?_ h
        intro z hz
        rcases List.mem_cons.mp hz with rfl | hz
        · exact hxyP
        · exact le_trans (List.rel_of_pairwise_cons h hz) hxyP
      · rw [if_neg hxy]
        have hyx : key x ≤ key y :=
          le_of_not_le (fun hc => hxy (decide_eq_true hc))
        refine List.Pairwise.cons ?_ (ih (List.Pairwise.sublist
          (List.sublist_cons_self y ys) h))
        intro z hz
        rcases List.mem_cons.mp
            ((insertCmp_perm _ x ys).mem_iff.mp hz) with rfl | hz
        · exact hyx
        · exact List.rel_of_pairwise_cons h hz

theorem pairwise_stableSortBy_flip (key : α → WithTop ℚ) (l : List α) :
    (stableSortBy (fun a b => keyLe key b a) l).Pairwise
      (fun a b => key b ≤ key a) := by
  induction l with
  | nil => simp [stableSortBy]
  | cons x xs ih =>
      unfold stableSortBy
      exact pairwise_insertCmp_flip key x _ ih

theorem lookupStore_setStore_self (k : String) (r : ScoreRecord) (s : Store) :
    lookupStore k (setStore k r s) = some r := by
  induction s with
  | nil => simp [setStore, lookupStore]
  | cons p rest ih =>
      obtain ⟨k2, r2⟩ := p
      unfold setStore
      by_cases h : k2 = k
      · rw [if_pos h]; simp [lookupStore]
      · rw [if_neg h]; simp [lookupStore, h, ih]

theorem mem_storeValues_setStore (k : String) (r : ScoreRecord) (s : Store) :
    r ∈ storeValues (setStore k r s) := by
  induction s with
  | nil => simp [setStore, storeValues]
  | cons p rest ih =>
      obtain ⟨k2, r2⟩ := p
      unfold setStore
      by_cases h : k2 = k
      · rw [if_pos h]; simp [storeValues]
      · rw [if_neg h]
        simpa [storeValues] using Or.inr ih

theorem jsTrim_empty : jsTrim "" = "" := by decide

/-- On a valid name the handler answers `ok` with the merged record,
replaces the child at the canonical key, and performs one read and one
write there. -/
theorem scoreSubmit_of_valid (b : SubmitBody) (now : ℕ) (s : Store)
    (nm : String) (hn : b.name = some nm) (ht : jsTrim nm ≠ "") :
    scoreSubmit b now s =
      (Resp.ok (nextRecord b now s nm),
       setStore (canonKey nm) (nextRecord b now s nm) s,
       [DbOp.read (canonKey nm),
        DbOp.write (canonKey nm) (nextRecord b now s nm)]) := by
  have hne : nm ≠ "" := by
    intro h
    exact ht (h ▸ jsTrim_empty)
  have hcond : ((nm = "" || jsTrim nm = "") : Bool) = false := by
    simp [hne, ht]
  unfold scoreSubmit nextRecord
  rw [hn]
  simp only [hcond, Bool.false_eq_true, if_false]

/-- Slotwise reading of the merged record. -/
theorem nextRecord_getC (b : SubmitBody) (now : ℕ) (s : Store) (nm : String)
    (c : Course) :
    (nextRecord b now s nm).getC c
      = mergeCourse (b.getC c) (curVal (canonKey nm) c s) := by
  cases c <;> cases h : lookupStore (canonKey nm) s <;>
    simp [nextRecord, ScoreRecord.getC, SubmitBody.getC, curVal, h,
      blankRecord]

theorem mergeAcc_some (l : List ℚ) : ∀ p : ℚ,
    mergeAcc (some p) l = some (l.foldl min p) := by
  induction l with
  | nil => intro p; rfl
  | cons q rest ih => intro p; simp [mergeAcc, List.foldl_cons, ih]

theorem mergeAcc_none (l : List ℚ) : mergeAcc none l = minOfList l := by
  cases l with
  | nil => rfl
  | cons q rest => simp [mergeAcc, minOfList, mergeAcc_some]

theorem foldl_min_le_init (l : List ℚ) : ∀ a : ℚ, l.foldl min a ≤ a := by
  induction l with
  | nil => intro a; simp
  | cons q rest ih =>
      intro a
      exact le_trans (ih (min a q)) (min_le_left a q)

theorem toNumber_num (q : ℚ) : toNumber (JVal.num q) = JNum.fin q := rfl

/-- The course slot after a run of valid, per-course-finite submissions is
the running minimum of the submitted values threaded onto the prior
slot value. -/
theorem applySubmits_curVal (c : Course) (k : String) (now : ℕ) :
    ∀ (bodies : List SubmitBody) (s : Store) (acc : Option ℚ),
    (∀ b ∈ bodies, ∃ nm, b.name = some nm ∧ jsTrim nm ≠ "" ∧ canonKey nm = k) →
    (∀ b ∈ bodies, ∀ v, b.getC c = some v → jsIsFinite (toNumber v) = true) →
    curVal k c s = acc.map JVal.num →
    curVal k c (applySubmits bodies now s)
      = (mergeAcc acc (finiteSubmitted c bodies)).map JVal.num := by
  intro bodies
  induction bodies with
  | nil => intro s acc _ _ hacc; simpa [applySubmits, mergeAcc, finiteSubmitted]
      using hacc
  | cons b rest ih =>
      intro s acc hname hfin hacc
      obtain ⟨nm, hn, ht, hk⟩ := hname b (List.mem_cons_self b rest)
      have hstep : applySubmits (b :: rest) now s
          = applySubmits rest now
              (setStore (canonKey nm) (nextRecord b now s nm) s) := by
        show applySubmits rest now (scoreSubmit b now s).2.1 = _
        rw [scoreSubmit_of_valid b now s nm hn ht]
      have hcur2 : curVal k c (setStore (canonKey nm) (nextRecord b now s nm) s)
          = (nextRecord b now s nm).getC c := by
        unfold curVal
        rw [hk, lookupStore_setStore_self]
      cases hb : b.getC c with
      | none =>
          have hmerge : (nextRecord b now s nm).getC c = acc.map JVal.num := by
            rw [nextRecord_getC, hb, hk]
            simpa [mergeCourse] using hacc
          have hfs : finiteSubmitted c (b :: rest) = finiteSubmitted c rest := by
            simp [finiteSubmitted, hb]
          rw [hstep, hfs]
          exact ih _ acc
            (fun b2 hb2 => hname b2 (List.mem_cons_of_mem b hb2))
            (fun b2 hb2 => hfin b2 (List.mem_cons_of_mem b hb2))
            (hcur2.trans hmerge)
      | some v =>
          obtain ⟨q, hq⟩ : ∃ q, toNumber v = JNum.fin q := by
            have := hfin b (List.mem_cons_self b rest) v hb
            cases hv : toNumber v <;> rw [hv] at this <;>
              first
              | exact ⟨_, rfl⟩
              | simp [jsIsFinite] at this
          have hfs : finiteSubmitted c (b :: rest)
              = q :: finiteSubmitted c rest := by
            simp [finiteSubmitted, hb, hq]
          rw [hstep, hfs]
          cases acc with
          | none =>
              have hc : curVal k c s = none := by simpa using hacc
              have hmerge : (nextRecord b now s nm).getC c
                  = some (JVal.num q) := by
                rw [nextRecord_getC, hb, hk, hc]
                simp [mergeCourse, hq]
              have hres := ih (setStore (canonKey nm) (nextRecord b now s nm) s)
                (some q)
                (fun b2 hb2 => hname b2 (List.mem_cons_of_mem b hb2))
                (fun b2 hb2 => hfin b2 (List.mem_cons_of_mem b hb2))
                (by simpa using hcur2.trans hmerge)
              rw [hres]
              rfl
          | some p =>
              have hc : curVal k c s = some (JVal.num p) := by simpa using hacc
              have hmerge : (nextRecord b now s nm).getC c
                  = some (JVal.num (min p q)) := by
                rw [nextRecord_getC, hb, hk, hc]
                simp [mergeCourse, hq, toNumber_num]
              have hres := ih (setStore (canonKey nm) (nextRecord b now s nm) s)
                (some (min p q))
                (fun b2 hb2 => hname b2 (List.mem_cons_of_mem b hb2))
                (fun b2 hb2 => hfin b2 (List.mem_cons_of_mem b hb2))
                (by simpa using hcur2.trans hmerge)
              rw [hres]
              rfl

/-- With any non-`desc` direction the listing is the stable sort by the
effective key, provided the consulted slots are numeric. -/
theorem listScores_asc_eq (s : Store) (courseQ : Option Course)
    (dirQ : Option String) (hd : dirQ ≠ some "desc")
    (hnum : ∀ r ∈ storeValues s, numSlot (r.getC (courseQ.getD Course.c1))) :
    listScores s courseQ dirQ
      = stableSortBy (keyLe (effSortKey (courseQ.getD Course.c1)))
          (storeValues s) := by
  unfold listScores
  rw [if_neg hd]
  exact stableSortBy_congr _ _ _
    (fun a ha b hb => sortLe_one_eq_keyLe _ a b (hnum a ha) (hnum b hb))

/-- With direction `desc` the listing is the stable sort by the flipped
effective key, provided the consulted slots are numeric. -/
theorem listScores_desc_eq (s : Store) (courseQ : Option Course)
    (hnum : ∀ r ∈ storeValues s, numSlot (r.getC (courseQ.getD Course.c1))) :
    listScores s courseQ (some "desc")
      = stableSortBy
          (fun a b => keyLe (effSortKey (courseQ.getD Course.c1)) b a)
          (storeValues s) := by
  unfold listScores
  rw [if_pos rfl]
  exact stableSortBy_congr _ _ _
    (fun a ha b hb => sortLe_negOne_eq_keyLe _ a b (hnum a ha) (hnum b hb))

/-- On a numeric slot the effective key is `⊤` exactly when the comparator
sees the `Infinity` sentinel. -/
theorem effSortKey_top_iff (c : Course) (r : ScoreRecord)
    (h : numSlot (r.getC c)) :
    effSortKey c r = ⊤ ↔ timeVal c r = JNum.posinf := by
  rcases timeVal_of_numSlot c r h with ht | ⟨q, hq, ht⟩
  · simp [effSortKey, ht]
  · simp [effSortKey, ht]

/-- C3 (as stated, refuted): the two names do not both canonicalize to
`bob-smith`: because the source trims before collapsing, the trailing
`!!` of `Bob Smith!!` becomes a trailing hyphen, giving `bob-smith-`, a
different key from the one `bob   smith` gets. -/
theorem c3_counterexample :
    canonKey "Bob Smith!!" = "bob-smith-" ∧
    canonKey "bob   smith" = "bob-smith" ∧
    canonKey "Bob Smith!!" ≠ "bob-smith" := by
  refine ⟨by decide, by decide, by decide⟩

/-- C3 (amended): the canonical-key derivation is idempotent;
`bob   smith` canonicalizes to `bob-smith`, but `Bob Smith!!`
canonicalizes to `bob-smith-` (trailing punctuation collapses to a
trailing hyphen rather than being removed), so the two submissions target
two distinct stored records. -/
theorem c3_key_derivation :
    (∀ s : String, canonKey (canonKey s) = canonKey s) ∧
    canonKey "bob   smith" = "bob-smith" ∧
    canonKey "Bob Smith!!" = "bob-smith-" ∧
    canonKey "Bob Smith!!" ≠ canonKey "bob   smith" :=
  ⟨canonKey_idem, by decide, by decide, by decide⟩

/-- C8 (as stated, refuted): on a store holding a record without `c1` and
a record with `c1 = 5`, the first copy's `GET /scores` (which sorts by
`c1` ascending) returns the records in a different order from the second
copy's (which returns them unsorted), so the copies are not behaviourally
equivalent on `GET /scores`; the second and third copies do agree. -/
theorem c8_counterexample :
    listScores [("d", recNoC1), ("a", recTime5)] none none
        = [recTime5, recNoC1] ∧
    listScoresV2 [("d", recNoC1), ("a", recTime5)] = [recNoC1, recTime5] ∧
    listScores [("d", recNoC1), ("a", recTime5)] none none
        ≠ listScoresV2 [("d", recNoC1), ("a", recTime5)] ∧
    listScoresV2 [("d", recNoC1), ("a", recTime5)]
        = listScoresV3 [("d", recNoC1), ("a", recTime5)] := by
  refine ⟨by decide, by decide, by decide, by decide⟩

/-- C8 (amended): the second and third copies have identical `GET /scores`
responses on every store; the first copy returns the same records (a
permutation) but sorted by the requested course, so its order differs in
general. -/
theorem c8_copies_agree_up_to_order (s : Store) (courseQ : Option Course)
    (dirQ : Option String) :
    listScoresV2 s = listScoresV3 s ∧
    List.Perm (listScores s courseQ dirQ) (listScoresV2 s) :=
  ⟨rfl, stableSortBy_perm _ _⟩

/-- C4 (as stated, refuted): with records whose `c1` times are 5 and 0,
the default listing returns the 5-record first and the 0-record last —
the comparator's `a[course] || Infinity` treats the stored 0 as missing —
so the output is not sorted ascending by the course field with only
missing slots sent to infinity. -/
theorem c4_counterexample :
    listScores [("a", recTime5), ("b", recTime0)] none none
        = [recTime5, recTime0] ∧
    ¬ (listScores [("a", recTime5), ("b", recTime0)] none none).Pairwise
        (fun a b => claimSortKeyC4 Course.c1 a ≤ claimSortKeyC4 Course.c1 b) := by
  refine ⟨by decide, by decide⟩

/-- C4 (amended): over stores whose consulted slots are numeric, the
listing is a permutation of the stored records; a record whose slot for
the named course (default `c1`) is missing or 0 has the `⊤` effective
key; the output is ordered by effective key ascending for every `dir`
other than exactly `desc`, and descending for `dir = desc`. -/
theorem c4_list_scores_sorted (s : Store) (courseQ : Option Course)
    (dirQ : Option String)
    (hnum : ∀ r ∈ storeValues s, numSlot (r.getC (courseQ.getD Course.c1))) :
    List.Perm (listScores s courseQ dirQ) (storeValues s) ∧
    (∀ r : ScoreRecord,
      r.getC (courseQ.getD Course.c1) = none ∨
        r.getC (courseQ.getD Course.c1) = some (JVal.num 0) →
      effSortKey (courseQ.getD Course.c1) r = ⊤) ∧
    (dirQ ≠ some "desc" →
      (listScores s courseQ dirQ).Pairwise
        (fun a b => effSortKey (courseQ.getD Course.c1) a
          ≤ effSortKey (courseQ.getD Course.c1) b)) ∧
    (dirQ = some "desc" →
      (listScores s courseQ dirQ).Pairwise
        (fun a b => effSortKey (courseQ.getD Course.c1) b
          ≤ effSortKey (courseQ.getD Course.c1) a)) := by
  refine ⟨?_, ?_, ?_, ?_⟩
  · exact stableSortBy_perm _ _
  · intro r hr
    rcases hr with hr | hr <;>
      simp [effSortKey, timeVal, hr, jsTruthy]
  · intro hd
    rw [listScores_asc_eq s courseQ dirQ hd hnum]
    exact pairwise_stableSortBy _ _
  · intro hd
    subst hd
    rw [listScores_desc_eq s courseQ hnum]
    exact pairwise_stableSortBy_flip _ _

/-- C4 witness: the amended listing theorem applied to the concrete
two-record store with times 5 and 0, default course and direction. -/
theorem c4_list_scores_sorted_witness :
    List.Perm (listScores [("a", recTime5), ("b", recTime0)] none none)
      (storeValues [("a", recTime5), ("b", recTime0)]) ∧
    (∀ r : ScoreRecord,
      r.getC ((none : Option Course).getD Course.c1) = none ∨
        r.getC ((none : Option Course).getD Course.c1) = some (JVal.num 0) →
      effSortKey ((none : Option Course).getD Course.c1) r = ⊤) ∧
    ((none : Option String) ≠ some "desc" →
      (listScores [("a", recTime5), ("b", recTime0)] none none).Pairwise
        (fun a b => effSortKey ((none : Option Course).getD Course.c1) a
          ≤ effSortKey ((none : Option Course).getD Course.c1) b)) ∧
    ((none : Option String) = some "desc" →
      (listScores [("a", recTime5), ("b", recTime0)] none none).Pairwise
        (fun a b => effSortKey ((none : Option Course).getD Course.c1) b
          ≤ effSortKey ((none : Option Course).getD Course.c1) a)) :=
  c4_list_scores_sorted [("a", recTime5), ("b", recTime0)] none none
    (by
      intro r hr
      replace hr : r ∈ [recTime5, recTime0] := hr
      rcases List.mem_cons.mp hr with rfl | hr
      · exact Or.inr ⟨5, rfl⟩
      · rcases List.mem_cons.mp hr with rfl | hr
        · exact Or.inr ⟨0, rfl⟩
        · simp at hr)

/-- C9: in the `GET /scores` comparator, a stored 0 for the named course
is falsy and so receives the `Infinity` sentinel exactly like a missing
slot; consequently (over numeric stores) records with a 0 or missing slot
come after every finite-nonzero-time record under the default ascending
order and before them under `desc`. -/
theorem c9_falsy_time_is_sentinel (c : Course) :
    (∀ r : ScoreRecord, r.getC c = some (JVal.num 0) →
      timeVal c r = JNum.posinf) ∧
    (∀ r : ScoreRecord, r.getC c = none → timeVal c r = JNum.posinf) ∧
    (∀ s : Store, (∀ r ∈ storeValues s, numSlot (r.getC c)) →
      (listScores s (some c) none).Pairwise
        (fun a b => timeVal c a = JNum.posinf → timeVal c b = JNum.posinf) ∧
      (listScores s (some c) (some "desc")).Pairwise
        (fun a b => timeVal c b = JNum.posinf → timeVal c a = JNum.posinf)) := by
  refine ⟨?_, ?_, ?_⟩
  · intro r hr
    simp [timeVal, hr, jsTruthy]
  · intro r hr
    simp [timeVal, hr]
  · intro s hnum
    have hnum2 : ∀ r ∈ storeValues s,
        numSlot (r.getC ((some c).getD Course.c1)) := hnum
    constructor
    · rw [listScores_asc_eq s (some c) none (by simp) hnum2]
      refine List.Pairwise.imp_of_mem ?_
        (pairwise_stableSortBy (effSortKey ((some c).getD Course.c1))
          (storeValues s))
      intro a b ha hb hle hta
      have ha2 : numSlot (a.getC c) :=
        hnum a ((mem_stableSortBy _ _ a).mp ha)
      have hb2 : numSlot (b.getC c) :=
        hnum b ((mem_stableSortBy _ _ b).mp hb)
      have hka : effSortKey c a = ⊤ := (effSortKey_top_iff c a ha2).mpr hta
      have htop : (⊤ : WithTop ℚ) ≤ effSortKey c b := hka ▸ hle
      exact (effSortKey_top_iff c b hb2).mp (top_le_iff.mp htop)
    · rw [listScores_desc_eq s (some c) hnum2]
      refine List.Pairwise.imp_of_mem ?_
        (pairwise_stableSortBy_flip (effSortKey ((some c).getD Course.c1))
          (storeValues s))
      intro a b ha hb hle htb
      have ha2 : numSlot (a.getC c) :=
        hnum a ((mem_stableSortBy _ _ a).mp ha)
      have hb2 : numSlot (b.getC c) :=
        hnum b ((mem_stableSortBy _ _ b).mp hb)
      have hkb : effSortKey c b = ⊤ := (effSortKey_top_iff c b hb2).mpr htb
      have htop : (⊤ : WithTop ℚ) ≤ effSortKey c a := hkb ▸ hle
      exact (effSortKey_top_iff c a ha2).mp (top_le_iff.mp htop)

/-- C9 witness: the sentinel theorem applied at course `c1`, the
0-time record, and the concrete two-record store. -/
theorem c9_falsy_time_is_sentinel_witness :
    timeVal Course.c1 recTime0 = JNum.posinf ∧
    ((listScores [("a", recTime5), ("b", recTime0)] (some Course.c1)
        none).Pairwise
      (fun a b => timeVal Course.c1 a = JNum.posinf →
        timeVal Course.c1 b = JNum.posinf) ∧
     (listScores [("a", recTime5), ("b", recTime0)] (some Course.c1)
        (some "desc")).Pairwise
      (fun a b => timeVal Course.c1 b = JNum.posinf →
        timeVal Course.c1 a = JNum.posinf)) :=
  ⟨(c9_falsy_time_is_sentinel Course.c1).1 recTime0 rfl,
   (c9_falsy_time_is_sentinel Course.c1).2.2 [("a", recTime5), ("b", recTime0)]
     (by
       intro r hr
       replace hr : r ∈ [recTime5, recTime0] := hr
       rcases List.mem_cons.mp hr with rfl | hr
       · exact Or.inr ⟨5, rfl⟩
       · rcases List.mem_cons.mp hr with rfl | hr
         · exact Or.inr ⟨0, rfl⟩
         · simp at hr)⟩

set_option maxRecDepth 4000 in
/-- C1 (as stated, refuted): after `Alice` stores `c1 = 55`, submitting
the non-numeric string `"x"` for `c1` produces a saved record whose `c1`
slot is absent: the present-but-non-finite submission makes the handler
skip both the minimum branch and the carry-forward branch, so the prior
value is dropped rather than retained. -/
theorem c1_counterexample :
    curVal "alice" Course.c1 (scoreSubmit bodyAlice55 0 []).2.1
      = some (JVal.num 55) ∧
    (scoreSubmit bodyAliceStr 1 (scoreSubmit bodyAlice55 0 []).2.1).1
      = Resp.ok recAliceDropped ∧
    recAliceDropped.getC Course.c1 = none := by
  refine ⟨by decide, by decide, by decide⟩

/-- C1 (amended): when the body holds a present value for a course slot
whose `Number` coercion is not finite, the saved record has that slot
absent — the prior stored value is dropped; the prior survives only when
the body omits the slot (or sends `null`). -/
theorem c1_nonfinite_drops_slot (b : SubmitBody) (now : ℕ) (s : Store)
    (c : Course) (v : JVal) (nm : String)
    (hn : b.name = some nm) (ht : jsTrim nm ≠ "")
    (hv : b.getC c = some v) (hnf : jsIsFinite (toNumber v) = false) :
    ∃ r, (scoreSubmit b now s).1 = Resp.ok r ∧ r.getC c = none := by
  refine ⟨nextRecord b now s nm, ?_, ?_⟩
  · rw [scoreSubmit_of_valid b now s nm hn ht]
  · rw [nextRecord_getC, hv]
    cases hnum : toNumber v with
    | fin q => rw [hnum] at hnf; simp [jsIsFinite] at hnf
    | nan => simp [mergeCourse, hnum]
    | posinf => simp [mergeCourse, hnum]
    | neginf => simp [mergeCourse, hnum]

set_option maxRecDepth 4000 in
/-- C1 witness: the amended theorem applied to the store left by the
`c1 = 55` submission and the body submitting the string `"x"`. -/
theorem c1_nonfinite_drops_slot_witness :
    ∃ r, (scoreSubmit bodyAliceStr 1 (scoreSubmit bodyAlice55 0 []).2.1).1
        = Resp.ok r ∧ r.getC Course.c1 = none :=
  c1_nonfinite_drops_slot bodyAliceStr 1 (scoreSubmit bodyAlice55 0 []).2.1
    Course.c1 (JVal.str "x") "Alice" rfl (by decide) rfl (by decide)

theorem finiteSubmitted_append (c : Course) (l1 l2 : List SubmitBody) :
    finiteSubmitted c (l1 ++ l2)
      = finiteSubmitted c l1 ++ finiteSubmitted c l2 := by
  simp [finiteSubmitted, List.filterMap_append]

theorem minOfList_append_le (l1 l2 : List ℚ) (p : ℚ)
    (h : minOfList l1 = some p) :
    ∃ q : ℚ, q ≤ p ∧ minOfList (l1 ++ l2) = some q := by
  cases l1 with
  | nil => simp [minOfList] at h
  | cons q0 r =>
      simp only [minOfList, Option.some.injEq] at h
      refine ⟨l2.foldl min p, foldl_min_le_init l2 p, ?_⟩
      simp only [List.cons_append, minOfList, List.foldl_append, h]

set_option maxRecDepth 4000 in
/-- C2 (as stated, refuted): submitting `c1 = 55` and then the
non-numeric string `"x"` for `c1` under the same key leaves the stored
slot absent, while the minimum of all finite values ever submitted is
55 — the field did not stay set. -/
theorem c2_counterexample :
    curVal "alice" Course.c1 (applySubmits [bodyAlice55, bodyAliceStr] 0 [])
      = none ∧
    (minOfList (finiteSubmitted Course.c1 [bodyAlice55, bodyAliceStr])).map
        JVal.num = some (JVal.num 55) ∧
    curVal "alice" Course.c1 (applySubmits [bodyAlice55, bodyAliceStr] 0 [])
      ≠ (minOfList (finiteSubmitted Course.c1
          [bodyAlice55, bodyAliceStr])).map JVal.num := by
  refine ⟨by decide, by decide, by decide⟩

/-- C2 (amended): across a sequence of non-concurrent submissions for one
key in which every included value for the course coerces to a finite
number, the stored slot equals the minimum of all values submitted so far
(so once set it stays set), and it is monotonically non-increasing across
prefixes. -/
theorem c2_course_min_invariant (bodies : List SubmitBody) (c : Course)
    (k : String) (now : ℕ)
    (hname : ∀ b ∈ bodies,
      ∃ nm, b.name = some nm ∧ jsTrim nm ≠ "" ∧ canonKey nm = k)
    (hfin : ∀ b ∈ bodies, ∀ v : JVal, b.getC c = some v →
      jsIsFinite (toNumber v) = true) :
    curVal k c (applySubmits bodies now [])
      = (minOfList (finiteSubmitted c bodies)).map JVal.num ∧
    (∀ pre suf, bodies = pre ++ suf →
      ∀ p : ℚ, curVal k c (applySubmits pre now []) = some (JVal.num p) →
        ∃ q : ℚ, q ≤ p ∧
          curVal k c (applySubmits bodies now []) = some (JVal.num q)) := by
  have hmain : ∀ bs : List SubmitBody,
      (∀ b ∈ bs, ∃ nm, b.name = some nm ∧ jsTrim nm ≠ "" ∧ canonKey nm = k) →
      (∀ b ∈ bs, ∀ v : JVal, b.getC c = some v →
        jsIsFinite (toNumber v) = true) →
      curVal k c (applySubmits bs now [])
        = (minOfList (finiteSubmitted c bs)).map JVal.num := by
    intro bs h1 h2
    have hres := applySubmits_curVal c k now bs [] none h1 h2 rfl
    rwa [mergeAcc_none] at hres
  refine ⟨hmain bodies hname hfin, ?_⟩
  intro pre suf heq p hp
  subst heq
  have hpre := hmain pre
    (fun b hb => hname b (List.mem_append.mpr (Or.inl hb)))
    (fun b hb v hv => hfin b (List.mem_append.mpr (Or.inl hb)) v hv)
  rw [hpre] at hp
  cases hm : minOfList (finiteSubmitted c pre) with
  | none => rw [hm] at hp; simp at hp
  | some p0 =>
      rw [hm] at hp
      have hp0 : p0 = p := by simpa using hp
      subst hp0
      obtain ⟨q, hq, hmq⟩ :=
        minOfList_append_le (finiteSubmitted c pre) (finiteSubmitted c suf)
          p0 hm
      refine ⟨q, hq, ?_⟩
      rw [hmain (pre ++ suf) hname hfin, finiteSubmitted_append, hmq]
      rfl

/-- C2 witness: the invariant applied to the two-submission run
`c1 = 55` then `c1 = 60` under the name `Alice`. -/
theorem c2_course_min_invariant_witness :
    curVal "alice" Course.c1 (applySubmits [bodyAlice55, bodyAlice60] 3 [])
      = (minOfList (finiteSubmitted Course.c1
          [bodyAlice55, bodyAlice60])).map JVal.num ∧
    (∀ pre suf, [bodyAlice55, bodyAlice60] = pre ++ suf →
      ∀ p : ℚ, curVal "alice" Course.c1 (applySubmits pre 3 [])
          = some (JVal.num p) →
        ∃ q : ℚ, q ≤ p ∧
          curVal "alice" Course.c1
              (applySubmits [bodyAlice55, bodyAlice60] 3 [])
            = some (JVal.num q)) :=
  c2_course_min_invariant [bodyAlice55, bodyAlice60] Course.c1 "alice" 3
    (by
      intro b hb
      rcases List.mem_cons.mp hb with rfl | hb
      · exact ⟨"Alice", rfl, by decide, by decide⟩
      · rcases List.mem_cons.mp hb with rfl | hb
        · exact ⟨"Alice", rfl, by decide, by decide⟩
        · simp at hb)
    (by
      intro b hb v hv
      rcases List.mem_cons.mp hb with rfl | hb
      · simp only [SubmitBody.getC, bodyAlice55, Option.some.injEq] at hv
        subst hv
        decide
      · rcases List.mem_cons.mp hb with rfl | hb
        · simp only [SubmitBody.getC, bodyAlice60, Option.some.injEq] at hv
          subst hv
          decide
        · simp at hb)

/-- C5 (as stated, refuted): a request whose name is missing but which
also lacks the API key is answered 401 by the middleware, not 400 — the
key check runs before name validation, so "every request with a missing
name gets a 400" fails. -/
theorem c5_counterexample :
    bodyNoName.name = none ∧
    (postScoresSubmit "secret" none bodyNoName 0 []).1
      = Resp.err 401 "Unauthorized" ∧
    respStatus (postScoresSubmit "secret" none bodyNoName 0 []).1 ≠ 400 := by
  refine ⟨rfl, by decide, by decide⟩

/-- C5 (amended): a request that passes the API-key middleware and whose
name is missing, empty, or whitespace-only is answered with the 400
validation error; and every request with such a name, authenticated or
not, leaves the store unchanged and performs no database operation. -/
theorem c5_invalid_name_rejected (apiKey : String) (hdr : Option String)
    (b : SubmitBody) (now : ℕ) (s : Store)
    (hname : b.name = none ∨ ∃ nm, b.name = some nm ∧ jsTrim nm = "") :
    (requireApiKey apiKey hdr = none →
      postScoresSubmit apiKey hdr b now s
        = (Resp.err 400 "Missing name", s, [])) ∧
    (postScoresSubmit apiKey hdr b now s).2.1 = s ∧
    (postScoresSubmit apiKey hdr b now s).2.2 = [] := by
  have hsub : scoreSubmit b now s = (Resp.err 400 "Missing name", s, []) := by
    rcases hname with h | ⟨nm, hn, ht⟩
    · unfold scoreSubmit
      rw [h]
    · have hcond : ((nm = "" || jsTrim nm = "") : Bool) = true := by
        simp [ht]
      unfold scoreSubmit
      rw [hn]
      simp only [hcond, if_true]
  refine ⟨?_, ?_⟩
  · intro hpass
    simp only [postScoresSubmit, hpass]
    exact hsub
  · cases hreq : requireApiKey apiKey hdr with
    | none => constructor <;> simp [postScoresSubmit, hreq, hsub]
    | some r => constructor <;> simp [postScoresSubmit, hreq]

/-- C5 witness: the amended theorem applied to an authenticated request
whose body has no name. -/
theorem c5_invalid_name_rejected_witness :
    (requireApiKey "k" (some "k") = none →
      postScoresSubmit "k" (some "k") bodyNoName 0 []
        = (Resp.err 400 "Missing name", [], [])) ∧
    (postScoresSubmit "k" (some "k") bodyNoName 0 []).2.1 = [] ∧
    (postScoresSubmit "k" (some "k") bodyNoName 0 []).2.2 = [] :=
  c5_invalid_name_rejected "k" (some "k") bodyNoName 0 [] (Or.inl rfl)

/-- C6: with a configured (nonempty) secret, a request whose `x-api-key`
header is absent or differs from the secret is answered 401 with no
database operation, whatever the body; a header exactly equal to the
secret passes the middleware. -/
theorem c6_api_key_auth (apiKey : String) (hdr : Option String)
    (b : SubmitBody) (now : ℕ) (s : Store) (hk : apiKey ≠ "") :
    ((hdr = none ∨ ∃ h0, hdr = some h0 ∧ h0 ≠ apiKey) →
      postScoresSubmit apiKey hdr b now s
        = (Resp.err 401 "Unauthorized", s, [])) ∧
    (hdr = some apiKey → requireApiKey apiKey hdr = none) := by
  constructor
  · intro hbad
    have hne : hdr.getD "" ≠ apiKey := by
      rcases hbad with rfl | ⟨h0, rfl, hh⟩
      · simpa using Ne.symm hk
      · simpa using hh
    have hreq : requireApiKey apiKey hdr
        = some (Resp.err 401 "Unauthorized") := by
      unfold requireApiKey
      rw [if_neg hk, if_pos hne]
    simp [postScoresSubmit, hreq]
  · intro hgood
    subst hgood
    unfold requireApiKey
    rw [if_neg hk, if_neg]
    simp

/-- C6 witness: the auth theorem applied to the configured secret
`secret` and a request with no header. -/
theorem c6_api_key_auth_witness :
    (((none : Option String) = none ∨
        ∃ h0, (none : Option String) = some h0 ∧ h0 ≠ "secret") →
      postScoresSubmit "secret" none bodyNoName 0 []
        = (Resp.err 401 "Unauthorized", [], [])) ∧
    ((none : Option String) = some "secret" →
      requireApiKey "secret" none = none) :=
  c6_api_key_auth "secret" none bodyNoName 0 [] (by decide)

theorem requireApiKey_some_err (apiKey : String) (hdr : Option String)
    (resp : Resp) (h : requireApiKey apiKey hdr = some resp) :
    ∃ st msg, resp = Resp.err st msg := by
  unfold requireApiKey at h
  by_cases hk : apiKey = ""
  · rw [if_pos hk] at h
    exact ⟨500, "Server not configured", (Option.some.inj h).symm⟩
  · rw [if_neg hk] at h
    by_cases hd : hdr.getD "" ≠ apiKey
    · rw [if_pos hd] at h
      exact ⟨401, "Unauthorized", (Option.some.inj h).symm⟩
    · rw [if_neg hd] at h
      cases h

/-- C7: a successful submission answers `ok` with exactly the record it
wrote at the canonical key, and a subsequent `GET /scores` on the
resulting store (any course, any direction) lists that record. -/
theorem c7_submit_roundtrip (apiKey : String) (hdr : Option String)
    (b : SubmitBody) (now : ℕ) (s : Store) (r : ScoreRecord) (s2 : Store)
    (tr : List DbOp) (courseQ : Option Course) (dirQ : Option String)
    (h : postScoresSubmit apiKey hdr b now s = (Resp.ok r, s2, tr)) :
    (∃ nm, b.name = some nm ∧ lookupStore (canonKey nm) s2 = some r) ∧
    r ∈ listScores s2 courseQ dirQ := by
  unfold postScoresSubmit at h
  cases hreq : requireApiKey apiKey hdr with
  | some resp =>
      rw [hreq] at h
      obtain ⟨st, msg, rfl⟩ := requireApiKey_some_err apiKey hdr resp hreq
      have hfst := congrArg (fun t : Resp × Store × List DbOp => t.1) h
      simp at hfst
  | none =>
      rw [hreq] at h
      cases hb : b.name with
      | none =>
          unfold scoreSubmit at h
          rw [hb] at h
          have hfst := congrArg (fun t : Resp × Store × List DbOp => t.1) h
          simp at hfst
      | some nm =>
          by_cases hg : ((nm = "" || jsTrim nm = "") : Bool) = true
          · unfold scoreSubmit at h
            rw [hb] at h
            simp only [hg, if_true] at h
            have hfst := congrArg (fun t : Resp × Store × List DbOp => t.1) h
            simp at hfst
          · have hgf : ((nm = "" || jsTrim nm = "") : Bool) = false := by
              simpa using hg
            have ht : jsTrim nm ≠ "" := by
              simp only [Bool.or_eq_false_iff, decide_eq_false_iff_not] at hgf
              exact hgf.2
            rw [scoreSubmit_of_valid b now s nm hb ht] at h
            rw [Prod.mk.injEq, Prod.mk.injEq] at h
            obtain ⟨hok, hs2, htr⟩ := h
            injection hok with hok2
            subst hok2
            subst hs2
            refine ⟨⟨nm, rfl, lookupStore_setStore_self _ _ _⟩, ?_⟩
            exact ((stableSortBy_perm _ _).mem_iff).mpr
              (mem_storeValues_setStore _ _ _)

set_option maxRecDepth 4000 in
/-- C7 witness: the round-trip theorem applied to a concrete successful
submission into the empty store. -/
theorem c7_submit_roundtrip_witness :
    (∃ nm, bodyBob.name = some nm ∧
      lookupStore (canonKey nm) [("bob", recBob)] = some recBob) ∧
    recBob ∈ listScores [("bob", recBob)] none none :=
  c7_submit_roundtrip "k" (some "k") bodyBob 5 [] recBob [("bob", recBob)]
    [DbOp.read "bob", DbOp.write "bob" recBob] none none (by decide)

/-- C10: submitted course values go through `Number` before the
finiteness check and the minimum — the string `"55"` coerces to the
number 55 — and the prior stored value is likewise coerced before the
comparison; a prior whose coercion is not finite is replaced outright by
the submitted finite value, while a finite-coercing prior yields the
minimum. -/
theorem c10_number_coercion (b : SubmitBody) (now : ℕ) (s : Store)
    (c : Course) (nm : String) (v w : JVal) (q : ℚ)
    (hn : b.name = some nm) (ht : jsTrim nm ≠ "")
    (hv : b.getC c = some v) (hq : toNumber v = JNum.fin q)
    (hw : curVal (canonKey nm) c s = some w) :
    toNumber (JVal.str "55") = JNum.fin 55 ∧
    (jsIsFinite (toNumber w) = false →
      ∃ r, (scoreSubmit b now s).1 = Resp.ok r
        ∧ r.getC c = some (JVal.num q)) ∧
    (∀ p : ℚ, toNumber w = JNum.fin p →
      ∃ r, (scoreSubmit b now s).1 = Resp.ok r
        ∧ r.getC c = some (JVal.num (min p q))) := by
  refine ⟨by decide, ?_, ?_⟩
  · intro hnf
    refine ⟨nextRecord b now s nm, ?_, ?_⟩
    · rw [scoreSubmit_of_valid b now s nm hn ht]
    · rw [nextRecord_getC, hv, hw]
      cases hnw : toNumber w with
      | fin p => rw [hnw] at hnf; simp [jsIsFinite] at hnf
      | nan => simp [mergeCourse, hq, hnw]
      | posinf => simp [mergeCourse, hq, hnw]
      | neginf => simp [mergeCourse, hq, hnw]
  · intro p hp
    refine ⟨nextRecord b now s nm, ?_, ?_⟩
    · rw [scoreSubmit_of_valid b now s nm hn ht]
    · rw [nextRecord_getC, hv, hw]
      simp [mergeCourse, hq, hp]

/-- C10 witness: the coercion theorem applied to the numeric-string
submission `"55"` against a stored non-numeric prior `"abc"`. -/
theorem c10_number_coercion_witness :
    toNumber (JVal.str "55") = JNum.fin 55 ∧
    (jsIsFinite (toNumber (JVal.str "abc")) = false →
      ∃ r, (scoreSubmit bodyAlice55Str 2 [("alice", recPriorStr)]).1
          = Resp.ok r ∧ r.getC Course.c1 = some (JVal.num 55)) ∧
    (∀ p : ℚ, toNumber (JVal.str "abc") = JNum.fin p →
      ∃ r, (scoreSubmit bodyAlice55Str 2 [("alice", recPriorStr)]).1
          = Resp.ok r ∧ r.getC Course.c1 = some (JVal.num (min p 55))) :=
  c10_number_coercion bodyAlice55Str 2 [("alice", recPriorStr)] Course.c1
    "Alice" (JVal.str "55") (JVal.str "abc") 55 rfl (by decide) rfl
    (by decide) (by decide)
